import Mathlib

/-!
Verification of the CrossTeamsAI query-focused meeting-summarization pipeline.

The development shallowly embeds the Python sources:
  * `app/cli_runner.py` — `split_chunks`, `keyword_prefilter`, prompt builders,
    `extract_transcript_from_input_text`, and the per-query map/reduce loop of `main`;
  * `01_summarization/summarizer.py` — the cache path computation, `run_summarizer`,
    `revise_summary`, and the per-utterance text normalization of
    `load_and_preprocess_transcript`;
  * `01_summarization/qmsum_loader.py` — the `input_text` template of `iter_qmsum`.

Python strings are embedded as `List Char` for the character-level functions and as
`String` for prompt/cache plumbing.  Python `int` is embedded as `Int`.  The Python
`while` loop of `split_chunks` need not terminate, so it is embedded fuel-indexed,
with `none` meaning "still running after that many iterations".
-/

namespace CrossTeamsAI

/-- Python `range(a, b)` as a list of naturals (`a ≥ b` gives `[]`). -/
def pyRange (a b : Nat) : List Nat := (List.range b).drop a

/-! ## The chunker: `split_chunks` (app/cli_runner.py lines 22–34)

```python
def split_chunks(text, chunk_chars=12000, overlap_chars=1000):
    if chunk_chars <= 0:
        return [text]
    out = []
    n = len(text)
    start = 0
    while start < n:
        end = min(start + chunk_chars, n)
        out.append(text[start:end])
        if end == n:
            break
        start = max(0, end - overlap_chars)
    return out
```
-/

/-- The `while` loop of `split_chunks`, fuel-indexed: one unit of fuel per
iteration; `none` means the loop has not finished within the given fuel.
`c` is `chunk_chars` (the caller guarantees `0 < c`), `o` is `overlap_chars`,
`n = len(text)`, `start` the loop variable, `acc` the reversed `out` list. -/
def splitChunksGo (c o : Int) (text : List Char) (n : Nat) :
    Nat → Nat → List (List Char) → Option (List (List Char))
  | 0, _, _ => none
  | fuel + 1, start, acc =>
    if start < n then
      let e := min (start + c.toNat) n
      let acc' := ((text.drop start).take (e - start)) :: acc
      if e = n then some acc'.reverse
      else splitChunksGo c o text n fuel ((e : Int) - o).toNat acc'
    else some acc.reverse

/-- Embedding of `split_chunks(text, chunk_chars, overlap_chars)`, fuel-indexed. -/
def splitChunksFuel (fuel : Nat) (text : List Char) (c o : Int) :
    Option (List (List Char)) :=
  if c ≤ 0 then some [text] else splitChunksGo c o text text.length fuel 0 []

/-- Same loop, recording the `(start, end)` offset pair of each emitted chunk
instead of the slice `text[start:end]`; the control flow inspects only
`n = len(text)`.  The degenerate `chunk_chars <= 0` branch returns the whole
text, i.e. the span `(0, n)`. -/
def splitChunksSpansGo (c o : Int) (n : Nat) :
    Nat → Nat → List (Nat × Nat) → Option (List (Nat × Nat))
  | 0, _, _ => none
  | fuel + 1, start, acc =>
    if start < n then
      let e := min (start + c.toNat) n
      let acc' := (start, e) :: acc
      if e = n then some acc'.reverse
      else splitChunksSpansGo c o n fuel ((e : Int) - o).toNat acc'
    else some acc.reverse

/-- Offset view of `split_chunks`. -/
def splitChunksSpansFuel (fuel : Nat) (n : Nat) (c o : Int) :
    Option (List (Nat × Nat)) :=
  if c ≤ 0 then some [(0, n)] else splitChunksSpansGo c o n fuel 0 []

/-- The Python loop of `split_chunks` terminates on this input. -/
def SplitTerminates (text : List Char) (c o : Int) : Prop :=
  ∃ fuel, (splitChunksFuel fuel text c o).isSome

/-- The chunks are exactly the slices of the recorded spans. -/
theorem splitChunksGo_eq_spans (c o : Int) (text : List Char) :
    ∀ fuel start accS,
      splitChunksGo c o text text.length fuel start
          (accS.map fun p => (text.drop p.1).take (p.2 - p.1)) =
        (splitChunksSpansGo c o text.length fuel start accS).map
          (List.map fun p => (text.drop p.1).take (p.2 - p.1)) := by
  intro fuel
  induction fuel with
  | zero => intro start accS; rfl
  | succ k ih =>
    intro start accS
    simp only [splitChunksGo, splitChunksSpansGo]
    by_cases h : start < text.length
    · simp only [if_pos h]
      by_cases he : min (start + c.toNat) text.length = text.length
      · simp [he, List.map_reverse]
      · simpa [he] using
          ih ((min (start + c.toNat) text.length : Int) - o).toNat
            ((start, min (start + c.toNat) text.length) :: accS)
    · simp [if_neg h, List.map_reverse]

/-- Function `split_chunks` is the slice image of its span view. -/
theorem splitChunksFuel_eq_spans (fuel : Nat) (text : List Char) (c o : Int) :
    splitChunksFuel fuel text c o =
      (splitChunksSpansFuel fuel text.length c o).map
        (List.map fun p => (text.drop p.1).take (p.2 - p.1)) := by
  unfold splitChunksFuel splitChunksSpansFuel
  by_cases h : c ≤ 0
  · simp [h]
  · simpa [h] using splitChunksGo_eq_spans c o text fuel 0 []

/-- A finished loop run is stable under one more unit of fuel. -/
theorem splitChunksGo_succ_of_some (c o : Int) (text : List Char) (n : Nat) :
    ∀ fuel start acc r, splitChunksGo c o text n fuel start acc = some r →
      splitChunksGo c o text n (fuel + 1) start acc = some r := by
  intro fuel
  induction fuel with
  | zero => intro start acc r h; exact absurd h (by simp [splitChunksGo])
  | succ k ih =>
    intro start acc r h
    rw [splitChunksGo] at h ⊢
    by_cases hs : start < n
    · simp only [if_pos hs] at h ⊢
      by_cases he : min (start + c.toNat) n = n
      · simpa [he] using h
      · simp only [if_neg he] at h ⊢
        exact ih _ _ _ h
    · simpa [if_neg hs] using h

/-- Loop-run stability under arbitrary extra fuel. -/
theorem splitChunksGo_mono (c o : Int) (text : List Char) (n : Nat)
    (fuel fuel' : Nat) (start : Nat) (acc : List (List Char)) (r : List (List Char))
    (hf : fuel ≤ fuel') (h : splitChunksGo c o text n fuel start acc = some r) :
    splitChunksGo c o text n fuel' start acc = some r := by
  induction hf with
  | refl => exact h
  | step _ ih => exact splitChunksGo_succ_of_some c o text n _ start acc r ih

/-- Span-loop analogue of `splitChunksGo_succ_of_some`. -/
theorem splitChunksSpansGo_succ_of_some (c o : Int) (n : Nat) :
    ∀ fuel start acc r, splitChunksSpansGo c o n fuel start acc = some r →
      splitChunksSpansGo c o n (fuel + 1) start acc = some r := by
  intro fuel
  induction fuel with
  | zero => intro start acc r h; exact absurd h (by simp [splitChunksSpansGo])
  | succ k ih =>
    intro start acc r h
    rw [splitChunksSpansGo] at h ⊢
    by_cases hs : start < n
    · simp only [if_pos hs] at h ⊢
      by_cases he : min (start + c.toNat) n = n
      · simpa [he] using h
      · simp only [if_neg he] at h ⊢
        exact ih _ _ _ h
    · simpa [if_neg hs] using h

/-- Span-loop stability under arbitrary extra fuel. -/
theorem splitChunksSpansGo_mono (c o : Int) (n : Nat)
    (fuel fuel' : Nat) (start : Nat) (acc : List (Nat × Nat)) (r : List (Nat × Nat))
    (hf : fuel ≤ fuel') (h : splitChunksSpansGo c o n fuel start acc = some r) :
    splitChunksSpansGo c o n fuel' start acc = some r := by
  induction hf with
  | refl => exact h
  | step _ ih => exact splitChunksSpansGo_succ_of_some c o n _ start acc r ih

/-- When the overlap is strictly smaller than the chunk size, `start` strictly
increases every iteration, so `n - start` is a variant for the loop. -/
theorem splitChunksGo_isSome_of_overlap_lt (c o : Int) (text : List Char) (n : Nat)
    (hc : 0 < c) (ho : o < c) :
    ∀ fuel start acc, n - start < fuel →
      (splitChunksGo c o text n fuel start acc).isSome := by
  intro fuel
  induction fuel with
  | zero => intro start acc h; omega
  | succ k ih =>
    intro start acc h
    rw [splitChunksGo]
    by_cases hs : start < n
    · simp only [if_pos hs]
      by_cases he : min (start + c.toNat) n = n
      · simp [he]
      · simp only [if_neg he]
        apply ih
        have hcn : (c.toNat : Int) = c := Int.toNat_of_nonneg (le_of_lt hc)
        have hmin : min (start + c.toNat) n = start + c.toNat := by omega
        rw [hmin]
        omega
    · simp [if_neg hs]

/-- C3, corrected.  The claim quantifies over all parameter values, but the
`while` loop of `split_chunks` diverges when `0 < chunk_chars ≤ overlap_chars`
and the text is longer than one chunk (see the counterexample); termination
does hold whenever `chunk_chars ≤ 0` (degenerate early return), or the overlap
is strictly smaller than the chunk size, or the whole text fits in one chunk:
then the final chunk is emitted once and the loop stops. -/
theorem splitChunks_terminates_of (text : List Char) (c o : Int)
    (h : c ≤ 0 ∨ o < c ∨ (text.length : Int) ≤ c) :
    SplitTerminates text c o := by
  by_cases hc : c ≤ 0
  · exact ⟨0, by simp [splitChunksFuel, hc]⟩
  · have hc' : 0 < c := lt_of_not_ge hc
    rcases h with h | h | h
    · exact absurd h hc
    · refine ⟨text.length + 1, ?_⟩
      rw [splitChunksFuel, if_neg hc]
      exact splitChunksGo_isSome_of_overlap_lt c o text text.length hc' h
        (text.length + 1) 0 [] (by omega)
    · refine ⟨1, ?_⟩
      rw [splitChunksFuel, if_neg hc]
      rw [splitChunksGo]
      by_cases hn : (0 : Nat) < text.length
      · have hcn : (c.toNat : Int) = c := Int.toNat_of_nonneg (le_of_lt hc')
        have hle2 : text.length ≤ c.toNat := by omega
        simp [hn, hle2]
      · simp [hn]

/-- C3, counterexample to the claim as stated: with `chunk_chars = 1`,
`overlap_chars = 1`, and the two-character text `"ab"`, the loop re-enters
with `start = max(0, end - overlap) = 0` forever and never terminates. -/
theorem splitChunks_termination_cex : ¬ SplitTerminates ['a', 'b'] 1 1 := by
  rintro ⟨fuel, h⟩
  have key : ∀ f acc, splitChunksGo 1 1 ['a', 'b'] 2 f 0 acc = none := by
    intro f
    induction f with
    | zero => intro acc; rfl
    | succ k ih =>
      intro acc
      rw [splitChunksGo]
      norm_num
      exact ih _
  have h2 : (splitChunksGo 1 1 ['a', 'b'] 2 fuel 0 []).isSome := by
    simpa [splitChunksFuel] using h
  rw [key] at h2
  simp at h2

/-- C3 witness: `chunk_chars = 2 > 1 = overlap_chars` on `"abc"` terminates. -/
theorem splitChunks_terminates_of_witness :
    ((1 : Int) < 2 ∨ (1 : Int) ≤ 0) ∧ SplitTerminates ['a', 'b', 'c'] 2 1 :=
  ⟨Or.inl (by norm_num),
   splitChunks_terminates_of ['a', 'b', 'c'] 2 1 (Or.inr (Or.inl (by norm_num)))⟩

/-- C1, counterexample to the claim as stated: for a text of length 100 with
`chunk_size = 40`, `overlap = 10`, the code produces the spans
`[(0,40), (30,70), (60,100)]` — three chunks with start offsets `[0, 30, 60]`,
not four with `[0, 30, 60, 90]` (the loop breaks as soon as `end` hits 100). -/
theorem splitChunks_offsets_claim_cex :
    splitChunksSpansFuel 4 100 40 10 = some [(0, 40), (30, 70), (60, 100)] ∧
    (splitChunksSpansFuel 4 100 40 10).map (List.map Prod.fst) ≠
      some [0, 30, 60, 90] := by
  constructor
  · decide
  · decide

/-- C1, corrected.  For any text of length 100 split with `chunk_size = 40`
and `overlap = 10` (and any fuel ≥ 3, which the loop never exhausts), the
chunk spans are exactly `[(0,40), (30,70), (60,100)]`: the start offsets are
`[0, 30, 60]` and the last chunk ends exactly at offset 100, the chunks being
the corresponding slices of the text. -/
theorem splitChunks_len100_offsets (text : List Char) (fuel : Nat)
    (hlen : text.length = 100) (hfuel : 3 ≤ fuel) :
    splitChunksSpansFuel fuel text.length 40 10 =
      some [(0, 40), (30, 70), (60, 100)] ∧
    splitChunksFuel fuel text 40 10 =
      some [text.take 40, (text.drop 30).take 40, (text.drop 60).take 40] := by
  have hspans : splitChunksSpansFuel fuel text.length 40 10 =
      some [(0, 40), (30, 70), (60, 100)] := by
    rw [hlen]
    have base : splitChunksSpansGo 40 10 100 3 0 [] =
        some [(0, 40), (30, 70), (60, 100)] := by decide
    rw [splitChunksSpansFuel, if_neg (by norm_num)]
    exact splitChunksSpansGo_mono 40 10 100 3 fuel 0 [] _ hfuel base
  refine ⟨hspans, ?_⟩
  rw [splitChunksFuel_eq_spans, hspans]
  simp

/-- C1 witness: the corrected offsets at the concrete text `replicate 100 'a'`. -/
theorem splitChunks_len100_offsets_witness :
    (List.replicate 100 'a').length = 100 ∧
    splitChunksSpansFuel 3 (List.replicate 100 'a').length 40 10 =
      some [(0, 40), (30, 70), (60, 100)] := by
  have h := splitChunks_len100_offsets (List.replicate 100 'a') 3
    (by simp) (le_refl 3)
  exact ⟨by simp, h.1⟩

/-- C5, counterexample to the claim as stated: for the empty text and
`chunk_size = 5 > 0`, the `while` loop body never runs and `split_chunks`
returns the empty list — not a single chunk equal to the (empty) text. -/
theorem splitChunks_single_chunk_cex :
    splitChunksFuel 1 ([] : List Char) 5 0 = some [] ∧
    splitChunksFuel 1 ([] : List Char) 5 0 ≠ some [([] : List Char)] := by
  constructor
  · decide
  · decide

/-- C5, corrected.  If `chunk_size ≤ 0`, or the text is nonempty with
`len(text) ≤ chunk_size`, then `split_chunks` returns exactly one chunk equal
to the whole text (for every fuel ≥ 1; the loop runs at most once).  For an
empty text with `chunk_size > 0` the code instead returns no chunks at all
(see the counterexample). -/
theorem splitChunks_single_chunk (text : List Char) (c o : Int) (fuel : Nat)
    (h : c ≤ 0 ∨ (0 < text.length ∧ (text.length : Int) ≤ c)) (hf : 1 ≤ fuel) :
    splitChunksFuel fuel text c o = some [text] := by
  rcases h with h | ⟨hpos, hle⟩
  · simp [splitChunksFuel, h]
  · have hc : ¬ c ≤ 0 := by omega
    rw [splitChunksFuel, if_neg hc]
    obtain ⟨k, rfl⟩ : ∃ k, fuel = k + 1 := ⟨fuel - 1, by omega⟩
    rw [splitChunksGo]
    have hcn : (c.toNat : Int) = c := Int.toNat_of_nonneg (by omega)
    have hle2 : text.length ≤ c.toNat := by omega
    have hmin : c.toNat ⊓ text.length = text.length := by omega
    simp [hpos, hle2, hmin]

/-- C5 witness: the one-character text `"a"` with `chunk_size = 5`. -/
theorem splitChunks_single_chunk_witness :
    ((5 : Int) ≤ 0 ∨ (0 < (['a'] : List Char).length ∧ (((['a'] : List Char).length : Int) ≤ 5))) ∧
    splitChunksFuel 1 ['a'] 5 0 = some [['a']] :=
  ⟨Or.inr (by norm_num), splitChunks_single_chunk ['a'] 5 0 1
    (Or.inr (by norm_num)) (le_refl 1)⟩

/-! ## Character-level helpers shared by the text functions -/

/-- Python whitespace (the default separator set of `str.split()` and
`str.strip()`, i.e. the `str.isspace` characters). -/
def isPySpace (c : Char) : Bool :=
  (0x09 ≤ c.toNat && c.toNat ≤ 0x0D) || c.toNat == 0x20 ||
  (0x1C ≤ c.toNat && c.toNat ≤ 0x1F) || c.toNat == 0x85 || c.toNat == 0xA0 ||
  c.toNat == 0x1680 || (0x2000 ≤ c.toNat && c.toNat ≤ 0x200A) ||
  c.toNat == 0x2028 || c.toNat == 0x2029 || c.toNat == 0x202F ||
  c.toNat == 0x205F || c.toNat == 0x3000

/-- Python `str.lower()`, character by character (ASCII case mapping; code
points outside ASCII are left unchanged by `Char.toLower`). -/
def toLowerL (cs : List Char) : List Char := cs.map Char.toLower

/-- Python substring containment `needle in hay`. -/
def inStr (needle : List Char) : List Char → Bool
  | [] => needle.isEmpty
  | c :: rest => needle.isPrefixOf (c :: rest) || inStr needle rest

/-- Python `str.splitlines()` on the `\n`, `\r`, `\r\n` line terminators (the
only ones the loader can produce, since it joins utterances with `"\n"`).
`acc` holds the current line reversed; a line is emitted at every terminator,
and the final partial line is emitted only when nonempty (so no trailing empty
line is produced for text ending in a terminator). -/
def pySplitlinesAux : List Char → List Char → List (List Char)
  | [], acc => if acc.isEmpty then [] else [acc.reverse]
  | '\r' :: '\n' :: rest, acc => acc.reverse :: pySplitlinesAux rest []
  | '\r' :: rest, acc => acc.reverse :: pySplitlinesAux rest []
  | '\n' :: rest, acc => acc.reverse :: pySplitlinesAux rest []
  | c :: rest, acc => pySplitlinesAux rest (c :: acc)

/-- Python `str.splitlines()`. -/
def pySplitlines (cs : List Char) : List (List Char) := pySplitlinesAux cs []

/-- Python no-argument `str.split()`: split on runs of whitespace, discarding
empty pieces.  `acc` holds the current word reversed. -/
def pySplitWSAux : List Char → List Char → List (List Char)
  | [], acc => if acc.isEmpty then [] else [acc.reverse]
  | c :: rest, acc =>
    if isPySpace c then
      if acc.isEmpty then pySplitWSAux rest []
      else acc.reverse :: pySplitWSAux rest []
    else pySplitWSAux rest (c :: acc)

/-- Python no-argument `str.split()`. -/
def pySplitWS (cs : List Char) : List (List Char) := pySplitWSAux cs []

/-! ## The keyword prefilter: `keyword_prefilter` (app/cli_runner.py lines 36–51)

```python
def keyword_prefilter(transcript, query, window=2):
    lines = transcript.splitlines()
    toks = [t for t in query.lower().split() if len(t) > 2]
    if not toks or not lines:
        return transcript
    keep = [False] * len(lines)
    for i, ln in enumerate(lines):
        low = ln.lower()
        if any(t in low for t in toks):
            for j in range(max(0, i - window), min(len(lines), i + window + 1)):
                keep[j] = True
    kept = [l for l, k in zip(lines, keep) if k]
    if len(kept) < max(60, len(lines) // 12):
        return transcript
    return "\n".join(kept)
```
-/

/-- The query tokens used by the prefilter: whitespace-split lowercased query
words longer than 2 characters. -/
def prefilterToks (query : List Char) : List (List Char) :=
  (pySplitWS (toLowerL query)).filter fun t => decide (2 < t.length)

/-- Embedding of `keyword_prefilter(transcript, query, window)`. -/
def keyword_prefilter (transcript query : List Char) (window : Nat) : List Char :=
  let lines := pySplitlines transcript
  let toks := prefilterToks query
  if toks.isEmpty || lines.isEmpty then transcript
  else
    let keep0 := List.replicate lines.length false
    let keep := lines.enum.foldl (fun keep p =>
      let low := toLowerL p.2
      if toks.any fun t => inStr t low then
        (pyRange (p.1 - window) (min lines.length (p.1 + window + 1))).foldl
          (fun k j => k.set j true) keep
      else keep) keep0
    let kept := (lines.zip keep).filterMap fun p => if p.2 then some p.1 else none
    if kept.length < max 60 (lines.length / 12) then transcript
    else List.intercalate ['\n'] kept

/-- A fold whose step fixes every accumulator returns its initial value. -/
theorem foldl_eq_init {α β : Type} (f : β → α → β) (l : List α) (init : β)
    (h : ∀ b a, a ∈ l → f b a = b) : l.foldl f init = init := by
  induction l generalizing init with
  | nil => rfl
  | cons x xs ih =>
    rw [List.foldl_cons, h init x (by simp)]
    exact ih init fun b a ha => h b a (by simp [ha])

/-- Zipping with all-`false` flags and filtering on the flag keeps nothing. -/
theorem zip_replicate_false_filterMap {α : Type} (l : List α) (n : Nat) :
    ((l.zip (List.replicate n false)).filterMap
      fun p => if p.2 then some p.1 else none) = [] := by
  induction l generalizing n with
  | nil => rfl
  | cons x xs ih =>
    cases n with
    | zero => rfl
    | succ m => simpa [List.replicate_succ] using ih m

/-- C6: if no line of the transcript case-insensitively contains any query
token longer than 2 characters, `keyword_prefilter` returns the original
transcript unchanged: no line is marked kept, and the kept-line count 0 is
below the `max(60, total_lines/12)` recall-safety threshold, which returns
the original text. -/
theorem keyword_prefilter_fallback (transcript query : List Char) (window : Nat)
    (h : ∀ ln ∈ pySplitlines transcript, ∀ t ∈ prefilterToks query,
        inStr t (toLowerL ln) = false) :
    keyword_prefilter transcript query window = transcript := by
  unfold keyword_prefilter
  by_cases hempty : (prefilterToks query).isEmpty ∨ (pySplitlines transcript).isEmpty
  · have : ((prefilterToks query).isEmpty || (pySplitlines transcript).isEmpty) = true := by
      rcases hempty with he | he <;> simp [he]
    simp only [this, if_true]
  · push_neg at hempty
    have hcond : ((prefilterToks query).isEmpty || (pySplitlines transcript).isEmpty) = false := by
      rcases hempty with ⟨h1, h2⟩
      simp only [Bool.or_eq_false_iff]
      exact ⟨by simpa using h1, by simpa using h2⟩
    simp only [hcond, Bool.false_eq_true, if_false]
    have henum : ∀ p ∈ (pySplitlines transcript).enum, p.2 ∈ pySplitlines transcript := by
      intro p hp
      have : p.2 ∈ (pySplitlines transcript).enum.map Prod.snd := List.mem_map_of_mem _ hp
      simpa [List.enum_map_snd] using this
    have hfold : (pySplitlines transcript).enum.foldl (fun keep p =>
        let low := toLowerL p.2
        if (prefilterToks query).any fun t => inStr t low then
          (pyRange (p.1 - window)
            (min (pySplitlines transcript).length (p.1 + window + 1))).foldl
            (fun k j => k.set j true) keep
        else keep)
        (List.replicate (pySplitlines transcript).length false) =
        List.replicate (pySplitlines transcript).length false := by
      apply foldl_eq_init
      intro b p hp
      have hno : ((prefilterToks query).any fun t => inStr t (toLowerL p.2)) = false := by
        simp only [List.any_eq_false]
        intro t ht
        simp [h p.2 (henum p hp) t ht]
      simp [hno]
    rw [hfold, zip_replicate_false_filterMap]
    have hlt : ([] : List (List Char)).length <
        max 60 ((pySplitlines transcript).length / 12) :=
      Nat.lt_of_lt_of_le (by norm_num) (le_max_left _ _)
    simp only [hlt, if_true]

/-- C6 witness: a two-line transcript sharing no token with the query. -/
theorem keyword_prefilter_fallback_witness :
    (∀ ln ∈ pySplitlines "hello\nworld".toList,
      ∀ t ∈ prefilterToks "xyzzy quux".toList,
        inStr t (toLowerL ln) = false) ∧
    keyword_prefilter "hello\nworld".toList "xyzzy quux".toList 2 =
      "hello\nworld".toList :=
  ⟨by decide, keyword_prefilter_fallback _ _ 2 (by decide)⟩

/-! ## The response cache: `get_cache_path` and `run_summarizer`
(01_summarization/summarizer.py lines 78–129)

```python
def get_cache_path(self, prompt, model="gpt-3.5-turbo", system_prompt=""):
    key = hashlib.md5((model + (system_prompt or "") + prompt).encode("utf-8")).hexdigest()
    return os.path.join(self.cache_dir, f"{key}.json")

def run_summarizer(self, prompt, model=..., system_prompt=None, temperature=0.2, max_tokens=220):
    cache_path = self.get_cache_path(prompt, model=model, system_prompt=(system_prompt or ""))
    if os.path.exists(cache_path):
        with open(cache_path, ...) as f:
            return json.load(f)["response"]
    messages = []
    if system_prompt:
        messages.append({"role": "system", "content": system_prompt})
    messages.append({"role": "user", "content": prompt})
    response = self.client.chat.completions.create(model=model, messages=messages,
                                                   temperature=temperature, max_tokens=max_tokens)
    output = response.choices[0].message.content
    with open(cache_path, "w", ...) as f:
        json.dump({"prompt": prompt, "system_prompt": system_prompt, "response": output}, f, ...)
    return output
```

The md5 digest is embedded as an abstract `hashFn : String → String` applied to
the same unseparated concatenation as the source; the cache directory is the
association list `Cache` from cache paths to the persisted JSON records; the
generation client is an abstract `gen` of the request fields it receives
(model, messages, temperature, max_tokens — the Python floats are embedded as
rationals, exact for every constant the program uses). -/

/-- Python `x or ""` on an optional string: `None` and `""` collapse to `""`. -/
def orEmpty : Option String → String
  | none => ""
  | some s => s

/-- Python truthiness of an optional string (`if system_prompt:`): `None` and
the empty string are falsy. -/
def pyTruthyStr : Option String → Bool
  | none => false
  | some s => !(s == "")

/-- The record `json.dump`ed into a cache file on a miss. -/
structure CacheEntry where
  prompt : String
  system_prompt : Option String
  response : String
deriving DecidableEq

/-- The cache directory contents: association of cache path to stored record. -/
abbrev Cache := List (String × CacheEntry)

/-- The generation client: model, messages (role/content pairs), temperature,
max_tokens. -/
abbrev GenFn := String → List (String × String) → Rat → Int → String

/-- Embedding of `get_cache_path(prompt, model, system_prompt)`:
`cache_dir/md5(model + system_prompt + prompt).json` (`hashFn` abstracts md5;
the argument is the unseparated concatenation, exactly as in the source). -/
def get_cache_path (hashFn : String → String) (cacheDir prompt model system_prompt : String) :
    String :=
  cacheDir ++ "/" ++ hashFn (model ++ system_prompt ++ prompt) ++ ".json"

/-- Embedding of `run_summarizer(prompt, model, system_prompt, temperature, max_tokens)`:
returns the response, the cache state afterwards, and how many generation
calls this invocation made (0 on hit, 1 on miss). -/
def run_summarizer (hashFn : String → String) (gen : GenFn) (cacheDir : String)
    (st : Cache) (prompt model : String) (system_prompt : Option String)
    (temperature : Rat) (max_tokens : Int) : String × Cache × Nat :=
  let cache_path := get_cache_path hashFn cacheDir prompt model (orEmpty system_prompt)
  match st.lookup cache_path with
  | some entry => (entry.response, st, 0)
  | none =>
    let messages :=
      (if pyTruthyStr system_prompt then [("system", orEmpty system_prompt)] else []) ++
        [("user", prompt)]
    let output := gen model messages temperature max_tokens
    (output, (cache_path, ⟨prompt, system_prompt, output⟩) :: st, 1)

/-- C2: for a fixed `(model, system_prompt, prompt)` triple, two successive
`run_summarizer` calls make exactly one generation invocation: the first call,
on a miss, invokes generation once and persists
`{prompt, system_prompt, response}` under the key, and the second call returns
the stored response with zero generation invocations. -/
theorem run_summarizer_cache_determinism (hashFn : String → String) (gen : GenFn)
    (cacheDir : String) (st : Cache) (prompt model : String)
    (system_prompt : Option String) (temperature : Rat) (max_tokens : Int)
    (hmiss : st.lookup
      (get_cache_path hashFn cacheDir prompt model (orEmpty system_prompt)) = none) :
    (run_summarizer hashFn gen cacheDir st prompt model system_prompt
        temperature max_tokens).2.2 = 1 ∧
    (run_summarizer hashFn gen cacheDir st prompt model system_prompt
        temperature max_tokens).2.1.lookup
      (get_cache_path hashFn cacheDir prompt model (orEmpty system_prompt)) =
      some ⟨prompt, system_prompt,
        (run_summarizer hashFn gen cacheDir st prompt model system_prompt
          temperature max_tokens).1⟩ ∧
    run_summarizer hashFn gen cacheDir
        (run_summarizer hashFn gen cacheDir st prompt model system_prompt
          temperature max_tokens).2.1
        prompt model system_prompt temperature max_tokens =
      ((run_summarizer hashFn gen cacheDir st prompt model system_prompt
          temperature max_tokens).1,
       (run_summarizer hashFn gen cacheDir st prompt model system_prompt
          temperature max_tokens).2.1, 0) := by
  simp [run_summarizer, hmiss, List.lookup]

/-- C2 witness: a concrete miss-then-hit pair of calls. -/
theorem run_summarizer_cache_determinism_witness :
    (([] : Cache).lookup
      (get_cache_path id "cache_qmsum" "p" "m" (orEmpty (some "s"))) = none) ∧
    ((run_summarizer id (fun _ _ _ _ => "resp") "cache_qmsum" [] "p" "m" (some "s")
        0 0).2.2 = 1 ∧
     (run_summarizer id (fun _ _ _ _ => "resp") "cache_qmsum" [] "p" "m" (some "s")
        0 0).2.1.lookup
       (get_cache_path id "cache_qmsum" "p" "m" (orEmpty (some "s"))) =
       some ⟨"p", some "s",
         (run_summarizer id (fun _ _ _ _ => "resp") "cache_qmsum" [] "p" "m"
           (some "s") 0 0).1⟩ ∧
     run_summarizer id (fun _ _ _ _ => "resp") "cache_qmsum"
         (run_summarizer id (fun _ _ _ _ => "resp") "cache_qmsum" [] "p" "m"
           (some "s") 0 0).2.1
         "p" "m" (some "s") 0 0 =
       ((run_summarizer id (fun _ _ _ _ => "resp") "cache_qmsum" [] "p" "m"
           (some "s") 0 0).1,
        (run_summarizer id (fun _ _ _ _ => "resp") "cache_qmsum" [] "p" "m"
           (some "s") 0 0).2.1, 0)) :=
  ⟨rfl, run_summarizer_cache_determinism id (fun _ _ _ _ => "resp") "cache_qmsum"
    [] "p" "m" (some "s") 0 0 rfl⟩

/-- C10: the cache key hashes the unseparated concatenation
`model + system_prompt + prompt`, so the distinct triples
`("m", "ab", "p")` and `("ma", "b", "p")` collide: `get_cache_path` returns
the same path for both, and after a response is cached for the first triple,
a call with the second triple returns that stored response with zero
generation invocations. -/
theorem get_cache_path_collision (hashFn : String → String) (cacheDir : String)
    (gen : GenFn) (temperature : Rat) (max_tokens : Int) :
    (("m", "ab", "p") : String × String × String) ≠ ("ma", "b", "p") ∧
    get_cache_path hashFn cacheDir "p" "m" "ab" =
      get_cache_path hashFn cacheDir "p" "ma" "b" ∧
    run_summarizer hashFn gen cacheDir
        (run_summarizer hashFn gen cacheDir [] "p" "m" (some "ab")
          temperature max_tokens).2.1
        "p" "ma" (some "b") temperature max_tokens =
      ((run_summarizer hashFn gen cacheDir [] "p" "m" (some "ab")
          temperature max_tokens).1,
       (run_summarizer hashFn gen cacheDir [] "p" "m" (some "ab")
          temperature max_tokens).2.1, 0) := by
  refine ⟨by decide, ?_, ?_⟩
  · unfold get_cache_path
    rfl
  · unfold run_summarizer
    simp only [List.lookup]
    have hkey : get_cache_path hashFn cacheDir "p" "ma" (orEmpty (some "b")) =
        get_cache_path hashFn cacheDir "p" "m" (orEmpty (some "ab")) := by
      unfold get_cache_path orEmpty
      rfl
    rw [hkey]
    simp [List.lookup]

/-! ## Python `str.strip()` and the prompt builders -/

/-- Python `str.lstrip()` with the default whitespace set. -/
def pyLStrip (cs : List Char) : List Char := cs.dropWhile isPySpace

/-- Python `str.rstrip()` with the default whitespace set. -/
def pyRStrip (cs : List Char) : List Char := (cs.reverse.dropWhile isPySpace).reverse

/-- Python `str.strip()` with the default whitespace set. -/
def pyStrip (cs : List Char) : List Char := pyRStrip (pyLStrip cs)

/-- Python `str.strip()` on the `String` view. -/
def pyStripS (s : String) : String := String.mk (pyStrip s.data)

/-- Python truthiness of an optional list (`if phrases_to_preserve:`): `None`
and the empty list are falsy. -/
def pyTruthyList {α : Type} : Option (List α) → Bool
  | none => false
  | some l => !l.isEmpty

/-- The `FEW_SHOT` constant (app/cli_runner.py lines 71–79). -/
def FEW_SHOT : String :=
  "### Example\nQuery: 'What was decided about the release date?'\nTranscript slice:\nAlice: We agreed to aim for mid-July.\nBob: The beta finishes end of June; July gives QA a buffer.\nReference-style summary: The team decided to target a mid-July release, allowing time after the beta for QA.\n---\n\n"

/-- The `SYSTEM_PROMPT` constant (app/cli_runner.py lines 111–115). -/
def SYSTEM_PROMPT : String :=
  "You are a precise, query-focused meeting summarizer. Write concise, factual summaries. Do not add any information that is not supported by the transcript."

/-- Embedding of `build_query_prompt(query, transcript_slice, phrases_to_preserve, use_few_shot)`
(app/cli_runner.py lines 81–95). -/
def build_query_prompt (query transcript_slice : String)
    (phrases_to_preserve : Option (List String)) (use_few_shot : Bool) : String :=
  let pfx := if use_few_shot then FEW_SHOT else ""
  let keep :=
    if pyTruthyList phrases_to_preserve then
      "Try to include these exact phrases if factually correct: " ++
        String.intercalate "; " (phrases_to_preserve.getD []) ++ "\n\n"
    else ""
  pfx ++
    "Task: answer ONLY the query using facts from the transcript slice. Be concise but complete; include all key facts. Reuse wording from the slice when possible. No preamble.\n\n" ++
    keep ++ "Query: '" ++ query ++ "'\n\nTranscript slice:\n" ++ transcript_slice

/-- Embedding of `build_reduce_prompt(query, partial_summaries, phrases_to_preserve)`
(app/cli_runner.py lines 97–109). -/
def build_reduce_prompt (query : String) (partial_summaries : List String)
    (phrases_to_preserve : Option (List String)) : String :=
  let joined := String.intercalate "\n\n--- PART ---\n\n" partial_summaries
  let keep :=
    if pyTruthyList phrases_to_preserve then
      "Try to include these exact phrases if factually correct: " ++
        String.intercalate "; " (phrases_to_preserve.getD []) ++ "\n\n"
    else ""
  "Task: merge the partial answers into one coherent answer. Eliminate duplicates; keep all key facts. Reuse wording from the parts when possible. No preamble.\n\n" ++
    keep ++ "Query: '" ++ query ++ "'\n\nPartial answers:\n" ++ joined

/-- Embedding of `revise_summary(draft_text, query, model)` (summarizer.py lines 134–155):
one extra cache-backed generation pass; `0.2` is the rational `1/5`. -/
def revise_summary (hashFn : String → String) (gen : GenFn) (cacheDir : String)
    (st : Cache) (draft_text query model : String) : String × Cache × Nat :=
  let system_prompt :=
    "You are a precise editor for query-focused meeting summaries. Return only the revised summary, 4–6 sentences, factual, no preamble."
  let prompt :=
    "Query: '" ++ query ++
      "'\n\nRevise the draft to be concise, coherent, and strictly supported by the transcript facts. Edit wording; do not introduce new information.\n\nDraft:\n" ++
      draft_text
  let r := run_summarizer hashFn gen cacheDir st prompt model (some system_prompt)
    (1 / 5 : Rat) 220
  (pyStripS r.1, r.2.1, r.2.2)

/-- Python list slice `xs[:k]` for a possibly negative bound `k`. -/
def pySliceTo {α : Type} (k : Int) (xs : List α) : List α :=
  if 0 ≤ k then xs.take k.toNat else xs.take (xs.length - (-k).toNat)

/-! ## The per-query map/reduce of `main` (app/cli_runner.py lines 199–229)

```python
chunks = split_chunks(text_for_chunking, chunk_chars=args.chunk_chars, overlap_chars=args.overlap_chars)
if len(chunks) > args.max_chunks:
    chunks = chunks[:args.max_chunks]
partials = []
for ch in chunks:
    map_prompt = build_query_prompt(query, ch, phrases_to_preserve=phrases, use_few_shot=(args.few_shot == "on"))
    part = ms.run_summarizer(map_prompt, model=args.model, system_prompt=SYSTEM_PROMPT,
                             temperature=args.temperature, max_tokens=args.max_tokens).strip()
    partials.append(part)
if len(partials) == 1:
    pred = partials[0]
else:
    reduce_prompt = build_reduce_prompt(query, partials, phrases_to_preserve=phrases)
    pred = ms.run_summarizer(reduce_prompt, ...).strip()
if args.revise == "on":
    pred = ms.revise_summary(pred, query, model=args.model)
```

The result records the prediction, the cache afterwards, the number of
generation-client invocations for this query, and the reduce prompt if one
was built (`none` when the reduce phase was skipped).  `none` overall means
the chunker loop did not finish within the given fuel.  The summarizer is
constructed with `cache_dir="cache_qmsum"` (line 161). -/
def processQuery (hashFn : String → String) (gen : GenFn) (st : Cache)
    (query : String) (text_for_chunking : List Char)
    (phrases : Option (List String)) (chunk_chars overlap_chars max_chunks : Int)
    (few_shot revise : String) (model : String) (temperature : Rat)
    (max_tokens : Int) (fuel : Nat) :
    Option (String × Cache × Nat × Option String) :=
  match splitChunksFuel fuel text_for_chunking chunk_chars overlap_chars with
  | none => none
  | some chunks0 =>
    let chunks :=
      if (chunks0.length : Int) > max_chunks then pySliceTo max_chunks chunks0
      else chunks0
    let step := fun (acc : List String × Cache × Nat) (ch : List Char) =>
      let map_prompt := build_query_prompt query (String.mk ch) phrases
        (few_shot == "on")
      let r := run_summarizer hashFn gen "cache_qmsum" acc.2.1 map_prompt model
        (some SYSTEM_PROMPT) temperature max_tokens
      (acc.1 ++ [pyStripS r.1], r.2.1, acc.2.2 + r.2.2)
    let mapRes := chunks.foldl step ([], st, 0)
    let partials := mapRes.1
    let afterReduce :=
      if partials.length == 1 then
        (partials.headD "", mapRes.2.1, mapRes.2.2, (none : Option String))
      else
        let reduce_prompt := build_reduce_prompt query partials phrases
        let r := run_summarizer hashFn gen "cache_qmsum" mapRes.2.1 reduce_prompt
          model (some SYSTEM_PROMPT) temperature max_tokens
        (pyStripS r.1, r.2.1, mapRes.2.2 + r.2.2, some reduce_prompt)
    if revise == "on" then
      let r := revise_summary hashFn gen "cache_qmsum" afterReduce.2.1
        afterReduce.1 query model
      some (r.1, r.2.1, afterReduce.2.2.1 + r.2.2, afterReduce.2.2.2)
    else some afterReduce

/-- A missing key makes `run_summarizer` invoke generation exactly once. -/
theorem run_summarizer_miss_calls (hashFn : String → String) (gen : GenFn)
    (cacheDir : String) (st : Cache) (prompt model : String)
    (system_prompt : Option String) (temperature : Rat) (max_tokens : Int)
    (hmiss : st.lookup
      (get_cache_path hashFn cacheDir prompt model (orEmpty system_prompt)) = none) :
    (run_summarizer hashFn gen cacheDir st prompt model system_prompt
      temperature max_tokens).2.2 = 1 := by
  simp [run_summarizer, hmiss]

/-- C4: when chunking yields exactly one chunk, the revise pass is off, the
per-query chunk cap admits at least one chunk, and the chunk's map prompt is
not already cached, the orchestrator's final prediction is exactly that single
chunk's map-phase output (the stripped response of the map call), no reduce
prompt is built, and exactly one generation call is made for the query. -/
theorem processQuery_single_chunk_skip_reduce (hashFn : String → String)
    (gen : GenFn) (st : Cache) (query : String) (text : List Char)
    (phrases : Option (List String)) (chunk_chars overlap_chars max_chunks : Int)
    (few_shot model : String) (temperature : Rat) (max_tokens : Int) (fuel : Nat)
    (ch : List Char)
    (hchunks : splitChunksFuel fuel text chunk_chars overlap_chars = some [ch])
    (hmax : 1 ≤ max_chunks)
    (hmiss : st.lookup (get_cache_path hashFn "cache_qmsum"
      (build_query_prompt query (String.mk ch) phrases (few_shot == "on"))
      model (orEmpty (some SYSTEM_PROMPT))) = none) :
    processQuery hashFn gen st query text phrases chunk_chars overlap_chars
        max_chunks few_shot "off" model temperature max_tokens fuel =
      some (pyStripS (run_summarizer hashFn gen "cache_qmsum" st
          (build_query_prompt query (String.mk ch) phrases (few_shot == "on"))
          model (some SYSTEM_PROMPT) temperature max_tokens).1,
        (run_summarizer hashFn gen "cache_qmsum" st
          (build_query_prompt query (String.mk ch) phrases (few_shot == "on"))
          model (some SYSTEM_PROMPT) temperature max_tokens).2.1,
        1, none) := by
  have hcall := run_summarizer_miss_calls hashFn gen "cache_qmsum" st
    (build_query_prompt query (String.mk ch) phrases (few_shot == "on"))
    model (some SYSTEM_PROMPT) temperature max_tokens hmiss
  have hcond : ¬ (((1 : Nat) : Int) > max_chunks) := by omega
  have hcond2 : ¬ (max_chunks < (1 : Int)) := by omega
  simp [processQuery, hchunks, hcond, hcond2, hcall]

/-- C4 witness: a concrete single-chunk query with an empty cache. -/
theorem processQuery_single_chunk_skip_reduce_witness :
    splitChunksFuel 1 "abc".toList 10 0 = some ["abc".toList] ∧
    (1 : Int) ≤ 6 ∧
    (([] : Cache).lookup (get_cache_path id "cache_qmsum"
      (build_query_prompt "q" (String.mk "abc".toList) none (("off" : String) == "on"))
      "m" (orEmpty (some SYSTEM_PROMPT))) = none) ∧
    processQuery id (fun _ _ _ _ => "X") [] "q" "abc".toList none 10 0 6
        "off" "off" "m" 0 0 1 =
      some (pyStripS (run_summarizer id (fun _ _ _ _ => "X") "cache_qmsum" []
          (build_query_prompt "q" (String.mk "abc".toList) none (("off" : String) == "on"))
          "m" (some SYSTEM_PROMPT) 0 0).1,
        (run_summarizer id (fun _ _ _ _ => "X") "cache_qmsum" []
          (build_query_prompt "q" (String.mk "abc".toList) none (("off" : String) == "on"))
          "m" (some SYSTEM_PROMPT) 0 0).2.1,
        1, none) :=
  ⟨by decide, by decide, rfl,
   processQuery_single_chunk_skip_reduce id (fun _ _ _ _ => "X") [] "q"
     "abc".toList none 10 0 6 "off" "m" 0 0 1 "abc".toList (by decide)
     (by decide) rfl⟩

/-! ## Loader template and transcript extractor

`01_summarization/qmsum_loader.py` line 59:
```python
input_text = f"Summarize the meeting in response to this query: '{query}'\n\n{transcript}"
```

`app/cli_runner.py` lines 119–127:
```python
def extract_transcript_from_input_text(input_text):
    t_prefix = "Transcript:\n"
    idx = input_text.find(t_prefix)
    if idx == -1:
        sep = "\n\n"
        j = input_text.find(sep)
        return input_text if j == -1 else input_text[j + len(sep):]
    return input_text[idx + len(t_prefix):]
```
-/

/-- Python `haystack.find(needle)`: index of the first occurrence, embedded as
`Option Nat` (`none` for Python's `-1`). -/
def pyFind (needle : List Char) : List Char → Option Nat
  | [] => if needle.isEmpty then some 0 else none
  | c :: rest =>
    if needle.isPrefixOf (c :: rest) then some 0
    else (pyFind needle rest).map (· + 1)

/-- The instruction part of the loader's `input_text` (everything before the
`"\n\n"` separator): the literal template around the quoted query. -/
def loaderInstr (query : List Char) : List Char :=
  "Summarize the meeting in response to this query: '".toList ++ query ++ ['\'']

/-- The `input_text` built by `iter_qmsum` for one query/transcript pair. -/
def buildInputText (query transcript : List Char) : List Char :=
  loaderInstr query ++ "\n\n".toList ++ transcript

/-- Embedding of `extract_transcript_from_input_text(input_text)`. -/
def extract_transcript_from_input_text (input_text : List Char) : List Char :=
  let t_pfx := "Transcript:\n".toList
  match pyFind t_pfx input_text with
  | some idx => input_text.drop (idx + t_pfx.length)
  | none =>
    match pyFind "\n\n".toList input_text with
    | none => input_text
    | some j => input_text.drop (j + "\n\n".toList.length)

/-- Predicate `inStr` decides infix containment. -/
theorem inStr_correct (needle hay : List Char) :
    inStr needle hay = true ↔ needle <:+: hay := by
  induction hay with
  | nil =>
    simp only [inStr, List.isEmpty_iff]
    constructor
    · intro h; simp [h]
    · intro h; exact List.eq_nil_of_infix_nil h
  | cons c rest ih =>
    simp only [inStr, Bool.or_eq_true, List.isPrefixOf_iff_prefix, ih,
      List.infix_cons_iff]

/-- A string containing no occurrence of `needle` makes `find` return `-1`. -/
theorem pyFind_eq_none_of_not_inStr (needle hay : List Char)
    (h : inStr needle hay = false) : pyFind needle hay = none := by
  induction hay with
  | nil =>
    simp only [inStr, List.isEmpty_iff] at h
    simp [pyFind, h]
  | cons c rest ih =>
    simp only [inStr, Bool.or_eq_false_iff] at h
    rw [pyFind, if_neg (by simp [h.1]), ih h.2]
    rfl

/-- If `"\n\n"` occurs neither inside `A` nor straddling `A`'s last character
(i.e. not in `A ++ "\n"`), the first occurrence of `"\n\n"` in
`A ++ "\n\n" ++ T` is at index `len(A)`. -/
theorem pyFind_sep_append (T : List Char) :
    ∀ A : List Char, inStr ['\n', '\n'] (A ++ ['\n']) = false →
      pyFind ['\n', '\n'] (A ++ ['\n', '\n'] ++ T) = some A.length := by
  intro A
  induction A with
  | nil =>
    intro _
    rw [show ([] : List Char) ++ ['\n', '\n'] ++ T = '\n' :: ('\n' :: T) by simp]
    rw [pyFind, if_pos (by rw [List.isPrefixOf_iff_prefix]; exact ⟨T, rfl⟩)]
    rfl
  | cons c A' ih =>
    intro h
    have hA' : inStr ['\n', '\n'] (A' ++ ['\n']) = false := by
      cases hin : inStr ['\n', '\n'] (A' ++ ['\n']) with
      | false => rfl
      | true =>
        exfalso
        rw [inStr_correct] at hin
        have h2 : inStr ['\n', '\n'] ((c :: A') ++ ['\n']) = true := by
          rw [inStr_correct]
          exact hin.trans ⟨[c], [], by simp⟩
        rw [h] at h2
        exact Bool.false_ne_true h2
    have hnp : ¬ (['\n', '\n'].isPrefixOf (c :: (A' ++ ['\n', '\n'] ++ T))) := by
      intro hp
      rw [List.isPrefixOf_iff_prefix] at hp
      rcases hp with ⟨t, ht⟩
      rw [show ['\n', '\n'] ++ t = '\n' :: ('\n' :: t) by rfl] at ht
      injection ht with hc ht2
      subst hc
      cases A' with
      | nil => exact absurd h (by decide)
      | cons d A'' =>
        have hd : d = '\n' := by
          have := congrArg List.head? ht2
          simpa using this.symm
        subst hd
        have h2 : inStr ['\n', '\n'] (('\n' :: '\n' :: A'') ++ ['\n']) = true := by
          rw [inStr_correct]
          exact ⟨[], A'' ++ ['\n'], by simp⟩
        rw [h] at h2
        exact Bool.false_ne_true h2
    rw [show (c :: A') ++ ['\n', '\n'] ++ T = c :: (A' ++ ['\n', '\n'] ++ T) by simp]
    rw [pyFind, if_neg hnp, ih hA']
    simp

/-- C8, counterexample to the claim as stated: the loader's `input_text` for
query `"q"` and transcript `"T"` contains no `"Transcript:\n"` marker anywhere
(`iter_qmsum` formats `"... this query: '{query}'\n\n{transcript}"`, with no
such marker; the extractor's comment describing the marker is stale). -/
theorem input_text_marker_cex :
    inStr "Transcript:\n".toList (buildInputText "q".toList "T".toList) = false ∧
    pyFind "Transcript:\n".toList (buildInputText "q".toList "T".toList) = none := by
  constructor
  · decide
  · decide

/-- C8, corrected.  `iter_qmsum`'s `input_text` does not embed a
`"Transcript:\n"` marker: it is the instruction (template text with the quoted
query) followed by `"\n\n"` and the raw transcript.  The extractor locates the
transcript through its fallback instead: whenever the marker occurs nowhere in
the `input_text` and no `"\n\n"` occurs inside (or at the right edge of) the
instruction part, `extract_transcript_from_input_text` returns exactly the
substring following the first `"\n\n"`, which is the raw transcript. -/
theorem extract_transcript_fallback (query transcript : List Char)
    (hm : inStr "Transcript:\n".toList (buildInputText query transcript) = false)
    (hsep : inStr ['\n', '\n'] (loaderInstr query ++ ['\n']) = false) :
    extract_transcript_from_input_text (buildInputText query transcript) =
      transcript := by
  simp only [extract_transcript_from_input_text]
  rw [pyFind_eq_none_of_not_inStr _ _ hm]
  have hb : buildInputText query transcript =
      loaderInstr query ++ ['\n', '\n'] ++ transcript := rfl
  rw [hb]
  rw [show ("\n\n".toList : List Char) = ['\n', '\n'] from rfl]
  rw [pyFind_sep_append transcript (loaderInstr query) hsep]
  show List.drop ((loaderInstr query).length + (['\n', '\n'] : List Char).length)
      (loaderInstr query ++ ['\n', '\n'] ++ transcript) = transcript
  have hlen : (loaderInstr query).length + (['\n', '\n'] : List Char).length =
      (loaderInstr query ++ ['\n', '\n']).length := by simp
  rw [hlen, List.drop_left]

/-- C8 witness: the concrete record with query `"q"` and transcript `"T"`. -/
theorem extract_transcript_fallback_witness :
    (inStr "Transcript:\n".toList (buildInputText "q".toList "T".toList) = false) ∧
    (inStr ['\n', '\n'] (loaderInstr "q".toList ++ ['\n']) = false) ∧
    extract_transcript_from_input_text (buildInputText "q".toList "T".toList) =
      "T".toList :=
  ⟨by decide, by decide,
   extract_transcript_fallback "q".toList "T".toList (by decide) (by decide)⟩

/-! ## The batch output writer (app/cli_runner.py lines 186–241)

```python
with open(args.out_jsonl, "w", encoding="utf-8") as out:
    for ex in run_items:
        ...
        row = {"meeting_id": ..., "query_id": ..., "query": ..., "prediction": ..., "reference": ...}
        out.write(json.dumps(row, ensure_ascii=False) + "\n")
        written += 1
```

The open mode is the literal `"w"`; each finished record appends
`json.dumps(row) + "\n"` to the file contents.  `json.dumps` with
`ensure_ascii=False` on a dict of five string values emits the keys in
insertion order with `", "` / `": "` separators and escapes `"`, `\\` and
control characters inside the values, so a serialized row never contains a
raw newline. -/

/-- The mode string passed to `open` for the prediction output file. -/
def outOpenMode : String := "w"

/-- One prediction row of the batch runner. -/
structure PredRow where
  meeting_id : List Char
  query_id : List Char
  query : List Char
  prediction : List Char
  reference : List Char

/-- Lower-case hex digit, as emitted by `json.dumps` in `\u00XX` escapes. -/
def hexDigit (n : Nat) : Char :=
  if n < 10 then Char.ofNat ('0'.toNat + n) else Char.ofNat ('a'.toNat + (n - 10))

/-- The `json.dumps` escaping of one character inside a JSON string value
(`ensure_ascii=False`: non-ASCII passes through; `"` and `\\` and all control
characters below U+0020 are escaped). -/
def jsonEscapeChar (c : Char) : List Char :=
  if c = '"' then ['\\', '"']
  else if c = '\\' then ['\\', '\\']
  else if c = '\n' then ['\\', 'n']
  else if c = '\r' then ['\\', 'r']
  else if c = '\t' then ['\\', 't']
  else if c = '\x08' then ['\\', 'b']
  else if c = '\x0c' then ['\\', 'f']
  else if c.toNat < 0x20 then
    ['\\', 'u', '0', '0', hexDigit (c.toNat / 16), hexDigit (c.toNat % 16)]
  else [c]

/-- The `json.dumps` escaping of a whole string value. -/
def jsonEscape (cs : List Char) : List Char := cs.flatMap jsonEscapeChar

/-- Embedding of `json.dumps(row, ensure_ascii=False)` for one prediction row. -/
def serializeRow (r : PredRow) : List Char :=
  "\x7b\"meeting_id\": \"".toList ++ jsonEscape r.meeting_id ++
  "\", \"query_id\": \"".toList ++ jsonEscape r.query_id ++
  "\", \"query\": \"".toList ++ jsonEscape r.query ++
  "\", \"prediction\": \"".toList ++ jsonEscape r.prediction ++
  "\", \"reference\": \"".toList ++ jsonEscape r.reference ++
  "\"\x7d".toList

/-- The output-file contents after the batch loop has written the given rows
(the file was opened with `outOpenMode`, so it starts empty). -/
def writeLoop (rows : List PredRow) : List Char :=
  rows.foldl (fun acc r => acc ++ serializeRow r ++ ['\n']) []

/-- The escaping of a single character never emits a raw newline. -/
theorem newline_not_mem_jsonEscapeChar (c : Char) : '\n' ∉ jsonEscapeChar c := by
  have hhex : ∀ n, n < 16 → hexDigit n ≠ '\n' := by decide
  unfold jsonEscapeChar
  split_ifs with h1 h2 h3 h4 h5 h6 h7 h8
  · decide
  · decide
  · decide
  · decide
  · decide
  · decide
  · decide
  · intro hmem
    have hlo : c.toNat / 16 < 16 := by omega
    have hmo : c.toNat % 16 < 16 := by omega
    simp only [List.mem_cons, List.not_mem_nil, or_false] at hmem
    rcases hmem with h | h | h | h | h | h
    · exact absurd h.symm (by decide)
    · exact absurd h.symm (by decide)
    · exact absurd h.symm (by decide)
    · exact absurd h.symm (by decide)
    · exact absurd h.symm (hhex _ hlo)
    · exact absurd h.symm (hhex _ hmo)
  · intro hmem
    simp only [List.mem_cons, List.not_mem_nil, or_false] at hmem
    exact h3 hmem.symm

/-- The escaping of a string value never contains a raw newline. -/
theorem newline_not_mem_jsonEscape (cs : List Char) : '\n' ∉ jsonEscape cs := by
  intro hmem
  rw [jsonEscape, List.mem_flatMap] at hmem
  rcases hmem with ⟨c, _, hc⟩
  exact newline_not_mem_jsonEscapeChar c hc

/-- C9, counterexample to the claim as stated: the batch runner opens the
prediction output file with mode `"w"` (write/truncate, default buffering),
not in append (`"a"`) or line-flush mode. -/
theorem out_open_mode_cex : outOpenMode = "w" ∧ outOpenMode ≠ "a" := by
  exact ⟨rfl, by decide⟩

/-- C9, corrected.  The output file is opened in write/truncate mode (`"w"`,
so lines of a previous run are not preserved), and within the run each
finished record appends exactly one complete JSON line to the previously
written contents: the serialized row contains no raw newline (every control
character in a field value is escaped), and is terminated by a single
`"\n"`.  Hence the file contents are always the concatenation of the
completed records' lines, and a run that stops on an unhandled generation
error has emitted exactly the lines of the records finished before it
(crash-time flushing of the final buffered line is an OS/runtime matter
outside this model). -/
theorem writeLoop_line_per_record (rows : List PredRow) (r : PredRow) :
    writeLoop (rows ++ [r]) = writeLoop rows ++ serializeRow r ++ ['\n'] ∧
    '\n' ∉ serializeRow r := by
  constructor
  · simp [writeLoop, List.foldl_append]
  · intro hmem
    rw [serializeRow] at hmem
    simp only [List.mem_append] at hmem
    casesm* _ ∨ _ <;>
      first
        | exact newline_not_mem_jsonEscape _ (by assumption)
        | exact absurd (by assumption) (by decide)

/-! ## The per-utterance normalizer
(`load_and_preprocess_transcript`, summarizer.py lines 31–53)

```python
text = re.sub(r'[☀-⛿✀-➿]+', '', text)
text = re.sub(r'\b(uh+|um+)\b', '', text, flags=re.IGNORECASE)
text = text.strip()
```

The first substitution deletes every character of the two emoji ranges.  For
the second: both ends of the pattern carry a word boundary `\b`, so a match is
flanked by non-word characters (or the ends of the string) and consists of
word characters only — i.e. a match is exactly a maximal run of word
characters whose lowercase form is `uh+` or `um+`, and the substitution
deletes all such runs.  Word characters (`\w`) are embedded as ASCII
letters/digits/underscore (the transcripts are ASCII; non-ASCII letters would
only enlarge the runs, not change the argument). -/

/-- The emoji ranges stripped by the normalizer (U+2600–26FF, U+2700–27BF). -/
def isEmojiChar (c : Char) : Bool :=
  (0x2600 ≤ c.toNat && c.toNat ≤ 0x26FF) || (0x2700 ≤ c.toNat && c.toNat ≤ 0x27BF)

/-- A regex word character (`\w`): ASCII letter, digit, or underscore. -/
def isWordChar (c : Char) : Bool :=
  (0x30 ≤ c.toNat && c.toNat ≤ 0x39) || (0x41 ≤ c.toNat && c.toNat ≤ 0x5A) ||
  (0x61 ≤ c.toNat && c.toNat ≤ 0x7A) || c.toNat == 0x5F

/-- A whole word matching `(uh+|um+)` case-insensitively. -/
def isFillerRun (run : List Char) : Bool :=
  match run.map Char.toLower with
  | 'u' :: t => !t.isEmpty && (t.all (· == 'h') || t.all (· == 'm'))
  | _ => false

/-- Embedding of `re.sub(r'\b(uh+|um+)\b', '', text, flags=re.IGNORECASE)`: delete every
maximal word-character run whose lowercase form is `uh+` or `um+`. -/
def removeFillers (l : List Char) : List Char :=
  match l with
  | [] => []
  | c :: cs =>
    if h : isWordChar c then
      let run := (c :: cs).takeWhile isWordChar
      let rest := (c :: cs).dropWhile isWordChar
      (if isFillerRun run then [] else run) ++ removeFillers rest
    else c :: removeFillers cs
termination_by l.length
decreasing_by
  · simp only [List.dropWhile_cons_of_pos h, List.length_cons]
    exact Nat.lt_succ_of_le (List.Sublist.length_le (List.dropWhile_sublist _))
  · simp

/-- The per-utterance normalization applied by
`load_and_preprocess_transcript`: strip the emoji ranges, delete whole-word
fillers, strip surrounding whitespace. -/
def normalizeUtterance (text : List Char) : List Char :=
  pyStrip (removeFillers (text.filter fun c => !isEmojiChar c))

theorem removeFillers_nil : removeFillers [] = [] := by
  rw [removeFillers]

theorem removeFillers_cons_neg (c : Char) (cs : List Char)
    (h : isWordChar c = false) :
    removeFillers (c :: cs) = c :: removeFillers cs := by
  rw [removeFillers]
  simp [h]

theorem removeFillers_cons_pos (c : Char) (cs : List Char)
    (h : isWordChar c = true) :
    removeFillers (c :: cs) =
      (if isFillerRun ((c :: cs).takeWhile isWordChar) then []
       else (c :: cs).takeWhile isWordChar) ++
        removeFillers ((c :: cs).dropWhile isWordChar) := by
  rw [removeFillers]
  simp [h]

/-- Whitespace characters are not word characters. -/
theorem isWordChar_eq_false_of_isPySpace (c : Char) (h : isPySpace c = true) :
    isWordChar c = false := by
  simp only [isPySpace, Bool.or_eq_true, Bool.and_eq_true, decide_eq_true_eq,
    beq_iff_eq] at h
  simp only [isWordChar, Bool.or_eq_false_iff, Bool.and_eq_false_iff,
    decide_eq_false_iff_not, beq_eq_false_iff_ne, ne_eq]
  omega

/-- List `takeWhile` swallows exactly a fully-satisfying left part when the right
part starts with a failing element (or is empty). -/
theorem takeWhile_append_eq_left {α : Type} (p : α → Bool) (run rest : List α)
    (hall : ∀ x ∈ run, p x = true) (hrest : ∀ d ∈ rest.head?, p d = false) :
    (run ++ rest).takeWhile p = run := by
  induction run with
  | nil =>
    cases rest with
    | nil => rfl
    | cons d ds =>
      exact List.takeWhile_cons_of_neg (by simp [hrest d rfl])
  | cons a run' ih =>
    rw [List.cons_append,
      List.takeWhile_cons_of_pos (by simp [hall a (by simp)]),
      ih fun x hx => hall x (by simp [hx])]

/-- The `dropWhile` counterpart of `takeWhile_append_eq_left`. -/
theorem dropWhile_append_eq_right {α : Type} (p : α → Bool) (run rest : List α)
    (hall : ∀ x ∈ run, p x = true) (hrest : ∀ d ∈ rest.head?, p d = false) :
    (run ++ rest).dropWhile p = rest := by
  induction run with
  | nil =>
    cases rest with
    | nil => rfl
    | cons d ds =>
      exact List.dropWhile_cons_of_neg (by simp [hrest d rfl])
  | cons a run' ih =>
    rw [List.cons_append,
      List.dropWhile_cons_of_pos (by simp [hall a (by simp)]),
      ih fun x hx => hall x (by simp [hx])]

/-- On a maximal word run followed by a non-word boundary, `removeFillers`
deletes or keeps the whole run and recurses past it. -/
theorem removeFillers_run_append (run rest : List Char) (hne : run ≠ [])
    (hall : ∀ x ∈ run, isWordChar x = true)
    (hrest : ∀ d ∈ rest.head?, isWordChar d = false) :
    removeFillers (run ++ rest) =
      (if isFillerRun run then [] else run) ++ removeFillers rest := by
  obtain ⟨a, run', rfl⟩ : ∃ a t, run = a :: t := by
    cases run with
    | nil => exact absurd rfl hne
    | cons a t => exact ⟨a, t, rfl⟩
  rw [List.cons_append, removeFillers_cons_pos _ _ (hall a (by simp))]
  rw [← List.cons_append,
    takeWhile_append_eq_left isWordChar (a :: run') rest hall hrest,
    dropWhile_append_eq_right isWordChar (a :: run') rest hall hrest]

/-- Function `removeFillers` fixes a string with no word characters at all. -/
theorem removeFillers_eq_self_of_no_word (w : List Char)
    (hw : ∀ x ∈ w, isWordChar x = false) : removeFillers w = w := by
  induction w with
  | nil => exact removeFillers_nil
  | cons c cs ih =>
    rw [removeFillers_cons_neg c cs (hw c (by simp)),
      ih fun x hx => hw x (by simp [hx])]

/-- Function `removeFillers` only deletes characters. -/
theorem removeFillers_sublist (l : List Char) : List.Sublist (removeFillers l) l := by
  suffices H : ∀ n (l : List Char), l.length ≤ n →
      List.Sublist (removeFillers l) l from H l.length l le_rfl
  intro n
  induction n with
  | zero =>
    intro l hl
    have hnil : l = [] := List.length_eq_zero.mp (by omega)
    subst hnil
    rw [removeFillers_nil]
  | succ n ih =>
    intro l hl
    cases l with
    | nil => rw [removeFillers_nil]
    | cons c cs =>
      by_cases hw : isWordChar c = true
      · rw [removeFillers_cons_pos c cs hw]
        have hsub : List.Sublist (removeFillers ((c :: cs).dropWhile isWordChar))
            ((c :: cs).dropWhile isWordChar) := by
          apply ih
          rw [List.dropWhile_cons_of_pos (by simp [hw])]
          have := (List.dropWhile_sublist (l := cs) (p := isWordChar)).length_le
          simp only [List.length_cons] at hl
          omega
        have h1 : List.Sublist
            ((if isFillerRun ((c :: cs).takeWhile isWordChar) then []
              else (c :: cs).takeWhile isWordChar) ++
                removeFillers ((c :: cs).dropWhile isWordChar))
            ((c :: cs).takeWhile isWordChar ++ (c :: cs).dropWhile isWordChar) := by
          apply List.Sublist.append _ hsub
          split
          · exact List.nil_sublist _
          · exact List.Sublist.refl _
        rwa [List.takeWhile_append_dropWhile] at h1
      · rw [removeFillers_cons_neg c cs (by simpa using hw)]
        exact List.Sublist.cons₂ c (ih cs (by
          simp only [List.length_cons] at hl; omega))

/-- The first character surviving `dropWhile` fails the predicate. -/
theorem dropWhile_head_not (p : Char → Bool) (l : List Char) (d : Char)
    (hd : (l.dropWhile p).head? = some d) : p d = false := by
  have h := List.head?_dropWhile_not p l
  rw [hd] at h
  exact h

/-- Function `removeFillers` is idempotent: its output contains no filler word (every
deleted run's neighbors are non-word characters, so deletion cannot splice two
word fragments into a new filler). -/
theorem removeFillers_idem (l : List Char) :
    removeFillers (removeFillers l) = removeFillers l := by
  suffices H : ∀ n (l : List Char), l.length ≤ n →
      removeFillers (removeFillers l) = removeFillers l from H l.length l le_rfl
  intro n
  induction n with
  | zero =>
    intro l hl
    have hnil : l = [] := List.length_eq_zero.mp (by omega)
    subst hnil
    rw [removeFillers_nil, removeFillers_nil]
  | succ n ih =>
    intro l hl
    cases l with
    | nil => rw [removeFillers_nil, removeFillers_nil]
    | cons c cs =>
      by_cases hw : isWordChar c = true
      · have hrest_len : ((c :: cs).dropWhile isWordChar).length ≤ n := by
          rw [List.dropWhile_cons_of_pos (by simp [hw])]
          have := (List.dropWhile_sublist (l := cs) (p := isWordChar)).length_le
          simp only [List.length_cons] at hl
          omega
        rw [removeFillers_cons_pos c cs hw]
        by_cases hfill : isFillerRun ((c :: cs).takeWhile isWordChar) = true
        · rw [if_pos hfill, List.nil_append]
          exact ih _ hrest_len
        · rw [if_neg hfill]
          have hne : (c :: cs).takeWhile isWordChar ≠ [] := by
            rw [List.takeWhile_cons_of_pos (by simp [hw])]
            simp
          have hall : ∀ x ∈ (c :: cs).takeWhile isWordChar, isWordChar x = true :=
            fun x hx => by simpa using List.mem_takeWhile_imp hx
          have hrest2 : ∀ d ∈ (removeFillers ((c :: cs).dropWhile isWordChar)).head?,
              isWordChar d = false := by
            intro d hd
            cases hrest : (c :: cs).dropWhile isWordChar with
            | nil => rw [hrest, removeFillers_nil] at hd; simp at hd
            | cons e es =>
              have he : isWordChar e = false :=
                dropWhile_head_not isWordChar (c :: cs) e (by rw [hrest]; rfl)
              rw [hrest, removeFillers_cons_neg e es he] at hd
              simp only [List.head?_cons, Option.mem_def, Option.some.injEq] at hd
              rw [hd] at he
              exact he
          rw [removeFillers_run_append _ _ hne hall hrest2, if_neg hfill,
            ih _ hrest_len]
      · have hwf : isWordChar c = false := by simpa using hw
        rw [removeFillers_cons_neg c cs hwf,
          removeFillers_cons_neg c (removeFillers cs) hwf,
          ih cs (by simp only [List.length_cons] at hl; omega)]

/-- Appending a fully non-word tail commutes with `removeFillers`. -/
theorem removeFillers_append_nonword (w : List Char)
    (hw : ∀ x ∈ w, isWordChar x = false) :
    ∀ l : List Char, removeFillers (l ++ w) = removeFillers l ++ w := by
  suffices H : ∀ n (l : List Char), l.length ≤ n →
      removeFillers (l ++ w) = removeFillers l ++ w from
    fun l => H l.length l le_rfl
  intro n
  induction n with
  | zero =>
    intro l hl
    have hnil : l = [] := List.length_eq_zero.mp (by omega)
    subst hnil
    rw [List.nil_append, removeFillers_nil, List.nil_append,
      removeFillers_eq_self_of_no_word w hw]
  | succ n ih =>
    intro l hl
    cases l with
    | nil =>
      rw [List.nil_append, removeFillers_nil, List.nil_append,
        removeFillers_eq_self_of_no_word w hw]
    | cons c cs =>
      by_cases hwc : isWordChar c = true
      · have hrest_len : ((c :: cs).dropWhile isWordChar).length ≤ n := by
          rw [List.dropWhile_cons_of_pos (by simp [hwc])]
          have := (List.dropWhile_sublist (l := cs) (p := isWordChar)).length_le
          simp only [List.length_cons] at hl
          omega
        have hne : (c :: cs).takeWhile isWordChar ≠ [] := by
          rw [List.takeWhile_cons_of_pos (by simp [hwc])]
          simp
        have hall : ∀ x ∈ (c :: cs).takeWhile isWordChar, isWordChar x = true :=
          fun x hx => by simpa using List.mem_takeWhile_imp hx
        have hrest2 : ∀ d ∈ (((c :: cs).dropWhile isWordChar) ++ w).head?,
            isWordChar d = false := by
          intro d hd
          cases hrest : (c :: cs).dropWhile isWordChar with
          | nil =>
            rw [hrest, List.nil_append] at hd
            cases w with
            | nil => simp at hd
            | cons x xs =>
              simp only [List.head?_cons, Option.mem_def, Option.some.injEq] at hd
              exact hd ▸ hw x (by simp)
          | cons e es =>
            have he : isWordChar e = false :=
              dropWhile_head_not isWordChar (c :: cs) e (by rw [hrest]; rfl)
            rw [hrest] at hd
            simp only [List.cons_append, List.head?_cons, Option.mem_def,
              Option.some.injEq] at hd
            rw [hd] at he
            exact he
        have hdecomp : (c :: cs) ++ w =
            ((c :: cs).takeWhile isWordChar) ++
              (((c :: cs).dropWhile isWordChar) ++ w) := by
          rw [← List.append_assoc, List.takeWhile_append_dropWhile]
        rw [hdecomp, removeFillers_run_append _ _ hne hall hrest2,
          removeFillers_cons_pos c cs hwc, ih _ hrest_len, List.append_assoc]
      · have hwf : isWordChar c = false := by simpa using hwc
        rw [List.cons_append, removeFillers_cons_neg c (cs ++ w) hwf,
          removeFillers_cons_neg c cs hwf,
          ih cs (by simp only [List.length_cons] at hl; omega), List.cons_append]

/-- Stripping leading whitespace preserves filler-freeness (whitespace is
non-word, so it only shortens a non-word separator). -/
theorem noFill_pyLStrip :
    ∀ l : List Char, removeFillers l = l →
      removeFillers (pyLStrip l) = pyLStrip l := by
  intro l
  induction l with
  | nil => intro _; rw [pyLStrip]; rw [List.dropWhile_nil, removeFillers_nil]
  | cons c cs ih =>
    intro h
    by_cases hsp : isPySpace c = true
    · have hwf : isWordChar c = false := isWordChar_eq_false_of_isPySpace c hsp
      rw [removeFillers_cons_neg c cs hwf] at h
      have hcs : removeFillers cs = cs := by injection h
      rw [pyLStrip, List.dropWhile_cons_of_pos (by simp [hsp])]
      exact ih hcs
    · rw [pyLStrip, List.dropWhile_cons_of_neg (by simpa using hsp)]
      exact h

/-- A list is its right-strip followed by its trailing whitespace. -/
theorem pyRStrip_append_decomp (l : List Char) :
    l = pyRStrip l ++ (l.reverse.takeWhile isPySpace).reverse := by
  conv_lhs => rw [← List.reverse_reverse l,
    ← List.takeWhile_append_dropWhile (p := isPySpace) (l := l.reverse)]
  rw [List.reverse_append]
  rfl

/-- Stripping trailing whitespace preserves filler-freeness. -/
theorem noFill_pyRStrip (l : List Char) (h : removeFillers l = l) :
    removeFillers (pyRStrip l) = pyRStrip l := by
  have hdecomp := pyRStrip_append_decomp l
  have hw : ∀ x ∈ (l.reverse.takeWhile isPySpace).reverse, isWordChar x = false := by
    intro x hx
    rw [List.mem_reverse] at hx
    exact isWordChar_eq_false_of_isPySpace x
      (by simpa using List.mem_takeWhile_imp hx)
  have h2 := removeFillers_append_nonword _ hw (pyRStrip l)
  rw [← hdecomp, h] at h2
  exact List.append_cancel_right (h2.symm.trans hdecomp)

/-- Stripping surrounding whitespace preserves filler-freeness. -/
theorem noFill_pyStrip (l : List Char) (h : removeFillers l = l) :
    removeFillers (pyStrip l) = pyStrip l :=
  noFill_pyRStrip _ (noFill_pyLStrip l h)

/-- List `dropWhile` is idempotent. -/
theorem dropWhile_dropWhile (p : Char → Bool) (l : List Char) :
    (l.dropWhile p).dropWhile p = l.dropWhile p := by
  cases hh : l.dropWhile p with
  | nil => rfl
  | cons d ds =>
    have hd : p d = false := dropWhile_head_not p l d (by rw [hh]; rfl)
    rw [List.dropWhile_cons_of_neg (by simp [hd])]

/-- Python `rstrip` is idempotent. -/
theorem pyRStrip_pyRStrip (l : List Char) : pyRStrip (pyRStrip l) = pyRStrip l := by
  unfold pyRStrip
  rw [List.reverse_reverse, dropWhile_dropWhile]

/-- After a left strip, a right strip introduces no new leading whitespace. -/
theorem pyLStrip_pyRStrip_pyLStrip (l : List Char) :
    pyLStrip (pyRStrip (pyLStrip l)) = pyRStrip (pyLStrip l) := by
  cases hh : pyRStrip (pyLStrip l) with
  | nil => rfl
  | cons d ds =>
    have hdecomp := pyRStrip_append_decomp (pyLStrip l)
    rw [hh] at hdecomp
    have hd : isPySpace d = false := by
      apply dropWhile_head_not isPySpace l d
      show (l.dropWhile isPySpace).head? = some d
      rw [show l.dropWhile isPySpace = pyLStrip l from rfl, hdecomp]
      rfl
    rw [pyLStrip, List.dropWhile_cons_of_neg (by simp [hd])]

/-- Python `strip` is idempotent. -/
theorem pyStrip_pyStrip (l : List Char) : pyStrip (pyStrip l) = pyStrip l := by
  unfold pyStrip
  rw [pyLStrip_pyRStrip_pyLStrip, pyRStrip_pyRStrip]

/-- Python `strip` only deletes characters. -/
theorem mem_of_mem_pyStrip (l : List Char) (x : Char) (hx : x ∈ pyStrip l) :
    x ∈ l := by
  unfold pyStrip pyRStrip pyLStrip at hx
  rw [List.mem_reverse] at hx
  have h1 := (List.dropWhile_sublist (p := isPySpace)).subset hx
  rw [List.mem_reverse] at h1
  exact (List.dropWhile_sublist (p := isPySpace)).subset h1

/-- C7: the per-utterance text normalization of
`load_and_preprocess_transcript` — strip the emoji ranges U+2600–26FF and
U+2700–27BF, remove whole-word `uh`/`um` fillers (with repeated trailing
letters) case-insensitively, strip surrounding whitespace — is idempotent:
applying it twice gives the same result as applying it once. -/
theorem normalizeUtterance_idem (text : List Char) :
    normalizeUtterance (normalizeUtterance text) = normalizeUtterance text := by
  have hemoji : ∀ x ∈ normalizeUtterance text, (!isEmojiChar x) = true := by
    intro x hx
    have hx1 : x ∈ removeFillers (text.filter fun c => !isEmojiChar c) :=
      mem_of_mem_pyStrip _ x hx
    have hx2 : x ∈ text.filter (fun c => !isEmojiChar c) :=
      (removeFillers_sublist _).subset hx1
    exact (List.mem_filter.mp hx2).2
  have hfilter : (normalizeUtterance text).filter (fun c => !isEmojiChar c) =
      normalizeUtterance text := List.filter_eq_self.mpr hemoji
  have hNoFill : removeFillers (normalizeUtterance text) =
      normalizeUtterance text := by
    unfold normalizeUtterance
    exact noFill_pyStrip _ (removeFillers_idem _)
  show pyStrip (removeFillers
    ((normalizeUtterance text).filter fun c => !isEmojiChar c)) =
    normalizeUtterance text
  rw [hfilter, hNoFill]
  unfold normalizeUtterance
  exact pyStrip_pyStrip _

end CrossTeamsAI
